import Mathlib

/-!
Verification development for the ACL configuration-language parser and
reference-resolution engine (single C file `src/acl.c`).

The C code is shallowly embedded: the global mutable lexer/cursor state
becomes explicit state records threaded through functions, the `Block`
tree with parent pointers becomes an inductive forest where a "current
block" context is represented by the chain of blocks from the current
block up to its top-level ancestor (the parent pointer of a block is
determined by its position in the tree, so this is information-preserving),
and in-place mutation of field values during resolution becomes functional
update addressed by child-index paths.  Loops become structural recursion,
with an explicit numeric bound (fuel) where the C loop's bound is not
syntactic; the C resolution pass walks the tree with an explicit stack and
the embedding reproduces that stack machine literally.
-/

namespace Acl

/- ### Data model: values, references, fields, blocks  (acl.c lines 333-506) -/

/-- `RefScope` from acl.c: `REF_GLOBAL, REF_LOCAL, REF_PARENT`. -/
inductive RefScope where
  | global
  | loc
  | parent
deriving DecidableEq

/-- `RefSeg` from acl.c: a path segment is a name (`is_index = 0`) or a
quoted-string index (`is_index = 1`); the linked list becomes `List RefSeg`. -/
inductive RefSeg where
  | name (s : String)
  | index (s : String)
deriving DecidableEq

/-- `Ref` from acl.c: scope, number of `^` prefixes, and segment list. -/
structure Ref where
  scope : RefScope
  parent_levels : Nat
  segs : List RefSeg
deriving DecidableEq

/-- `Value` from acl.c: the tagged union with kinds
`VAL_INT, VAL_BOOL, VAL_STRING, VAL_CHAR, VAL_ARRAY, VAL_REF`.
The C struct keeps all payload fields side by side and reads only the
one selected by `kind`; the embedding is the corresponding sum type.
Array items (`ValueItem` linked list) become `List Value`. -/
inductive Value where
  | int (i : Int)
  | bool (b : Bool)
  | str (s : String)
  | char (c : Char)
  | arr (elems : List Value)
  | ref (r : Ref)

/-- `Field` from acl.c line 505: optional type annotation, name, value. -/
structure Field where
  type : Option String
  name : String
  value : Value

/-- `Block` from acl.c line 506: name, optional label, field list, child
list.  The `next` sibling pointer becomes list membership and the
non-owning `parent` pointer becomes positional context (see `ctxAt`). -/
inductive Block where
  | mk (name : String) (label : Option String) (fields : List Field) (children : List Block)

def Block.name : Block → String
  | .mk n _ _ _ => n

def Block.label : Block → Option String
  | .mk _ l _ _ => l

def Block.fields : Block → List Field
  | .mk _ _ fs _ => fs

def Block.children : Block → List Block
  | .mk _ _ _ cs => cs

/- ### Deep copy  (acl.c `value_deep_copy`, lines 804-837) -/

/-- Segment-list copy inside `value_deep_copy` (the `while (src)` loop). -/
def copySegs : List RefSeg → List RefSeg
  | [] => []
  | .name n :: rest => .name n :: copySegs rest
  | .index i :: rest => .index i :: copySegs rest

mutual

/-- `value_deep_copy` from acl.c: returns an owned structural copy of a
value; in value semantics this is the identity (proved below), but the
definition mirrors the C function case by case. -/
def value_deep_copy : Value → Value
  | .int i => .int i
  | .bool b => .bool b
  | .str s => .str s
  | .char c => .char c
  | .arr xs => .arr (copyItems xs)
  | .ref r => .ref ⟨r.scope, r.parent_levels, copySegs r.segs⟩

/-- The `while (it)`/`array_append` loop of `value_deep_copy`. -/
def copyItems : List Value → List Value
  | [] => []
  | v :: rest => value_deep_copy v :: copyItems rest

end

theorem copySegs_eq (l : List RefSeg) : copySegs l = l := by
  induction l with
  | nil => rfl
  | cons s rest ih => cases s <;> simp [copySegs, ih]

mutual

theorem value_deep_copy_eq : ∀ v : Value, value_deep_copy v = v
  | .int _ => rfl
  | .bool _ => rfl
  | .str _ => rfl
  | .char _ => rfl
  | .arr xs => by simp [value_deep_copy, copyItems_eq xs]
  | .ref r => by simp [value_deep_copy, copySegs_eq]

theorem copyItems_eq : ∀ xs : List Value, copyItems xs = xs
  | [] => rfl
  | v :: rest => by simp [copyItems, value_deep_copy_eq v, copyItems_eq rest]

end

/- ### Lookup helpers  (acl.c lines 840-866) -/

/-- The first-match scan by name shared by `find_child_by_name`
(acl.c lines 840-846) and the inline top-level scan in
`resolve_ref_to_value` (lines 894-898): first block in the list whose
name matches. -/
def findBlockByName : List Block → String → Option Block
  | [], _ => none
  | c :: rest, n => if c.name = n then some c else findBlockByName rest n

/-- `find_child_by_name` from acl.c: first child of `blk` with the name. -/
def find_child_by_name (blk : Block) (n : String) : Option Block :=
  findBlockByName blk.children n

/-- The first-match scan by label: the inline loop for index segments in
`resolve_ref_to_value` (acl.c lines 920-923). -/
def findBlockByLabel : List Block → String → Option Block
  | [], _ => none
  | c :: rest, l => if c.label = some l then some c else findBlockByLabel rest l

/-- The first-match scan by name and label: `find_child_by_name_and_label`
(acl.c lines 849-857) and the inline loop at lines 934-939. -/
def findBlockByNameLabel : List Block → String → String → Option Block
  | [], _, _ => none
  | c :: rest, n, l =>
      if c.name = n ∧ c.label = some l then some c
      else findBlockByNameLabel rest n l

/-- The field-list scan inside `find_field_in_block` (acl.c lines 860-866). -/
def findFieldByName : List Field → String → Option Field
  | [], _ => none
  | f :: rest, n => if f.name = n then some f else findFieldByName rest n

/-- `find_field_in_block` from acl.c: first field of `blk` with the name. -/
def find_field_in_block (blk : Block) (n : String) : Option Field :=
  findFieldByName blk.fields n

/- ### Reference resolution  (acl.c `resolve_ref_to_value`, lines 871-966) -/

/-- The parent-walking loop of `resolve_ref_to_value` (acl.c lines 907-911):
`pos = current; repeat levels times: if pos has no parent fail, else step up`.
The context list holds the current block first, then its ancestors in order;
a block is top-level exactly when it is the last entry. -/
def walkParents : List Block → Nat → Option (List Block)
  | ctx, 0 => some ctx
  | _ :: p :: rest, n + 1 => walkParents (p :: rest) n
  | _, _ + 1 => none

/-- The segment-walking loop of `resolve_ref_to_value` (acl.c lines 915-965),
starting at block `b` with the remaining segments.  Mirrors the C loop:
an index segment selects the first child by label; a name segment followed
by an index segment selects by (name, label) and consumes both; a bare name
segment selects the first child by name, and only if no child matches and it
is the final segment is it read as a field of the current block, returning a
deep copy of that field's value (`try_field_copy`, lines 878-884).  Falling
off the end of the segments while positioned at a block is a failure
(line 965), as is any failed child lookup (the C sets `pos = NULL` or
returns 0; the next iteration's `if (!pos) return 0` makes that an
immediate failure, folded here into the lookup). -/
def walkSegs (b : Block) : List RefSeg → Option Value
  | [] => none
  | .index l :: rest =>
      match findBlockByLabel b.children l with
      | some c => walkSegs c rest
      | none => none
  | .name n :: .index l :: rest =>
      match findBlockByNameLabel b.children n l with
      | some c => walkSegs c rest
      | none => none
  | .name n :: rest =>
      match findBlockByName b.children n with
      | some c => walkSegs c rest
      | none =>
          match rest with
          | [] =>
              match find_field_in_block b n with
              | some f => some (value_deep_copy f.value)
              | none => none
          | _ => none

/-- `resolve_ref_to_value` from acl.c: resolve a reference against the
top-level forest `roots` and the current block context `ctx` (current block
first, ancestors after, as maintained by the resolution engine).  Returns
`some copy` on success, `none` on failure; `none` is the C `return 0` and
never an error.  The `depth > 64` recursion guard is kept verbatim. -/
def resolve_ref_to_value (roots : List Block) (ctx : List Block) (r : Ref)
    (depth : Nat) : Option Value :=
  if 64 < depth then none
  else
    match r.scope with
    | .global =>
        match r.segs with
        | [] => none
        | .index _ :: _ => none
        | .name n :: rest =>
            match findBlockByName roots n with
            | some b => walkSegs b rest
            | none => none
    | .loc =>
        match ctx with
        | [] => none
        | b :: _ => walkSegs b r.segs
    | .parent =>
        match ctx with
        | [] => none
        | _ :: _ =>
            match walkParents ctx r.parent_levels with
            | some (b :: _) => walkSegs b r.segs
            | _ => none

/-- `try_resolve_value_for_field` from acl.c (lines 970-982): if the value
is a reference and it resolves, replace it (flag 1); otherwise leave the
value exactly as it was (flag 0). -/
def try_resolve_value_for_field (roots : List Block) (ctx : List Block)
    (v : Value) (depth : Nat) : Bool × Value :=
  match v with
  | .ref r =>
      match resolve_ref_to_value roots ctx r (depth + 1) with
      | some res => (true, res)
      | none => (false, v)
  | _ => (false, v)

/- ### Tree addressing.

`resolve_all_refs` mutates field values in place through pointers into the
live tree.  The embedding addresses a block by its path of child indices
(first index into the top-level list, the rest into successive `children`
lists) and rebuilds the forest functionally on update.  Only field values
are ever written (matching the C, which assigns only to `f->value` /
`it->v`), so block addresses are stable across updates. -/

/-- Replace the element at an index, leaving the list unchanged when the
index is out of range. -/
def listModify {α : Type} : List α → Nat → (α → α) → List α
  | [], _, _ => []
  | a :: rest, 0, g => g a :: rest
  | a :: rest, n + 1, g => a :: listModify rest n g

/-- The block at a (nonempty) index path, if any. -/
def getAt : List Block → List Nat → Option Block
  | _, [] => none
  | bs, i :: rest =>
      match bs[i]? with
      | none => none
      | some b =>
          match rest with
          | [] => some b
          | _ => getAt b.children rest

/-- The chain of blocks along a path, outermost first. -/
def chainAt : List Block → List Nat → List Block
  | _, [] => []
  | bs, i :: rest =>
      match bs[i]? with
      | none => []
      | some b => b :: chainAt b.children rest

/-- The resolution context for the block at a path: the block itself first,
then its ancestors upward — exactly the chain the C code reaches through
the `parent` pointers from the current block. -/
def ctxAt (forest : List Block) (p : List Nat) : List Block :=
  (chainAt forest p).reverse

/-- Rewrite the field list of the block at a path. -/
def modifyFieldsAt : List Block → List Nat → (List Field → List Field) → List Block
  | bs, [], _ => bs
  | bs, i :: rest, g =>
      match rest with
      | [] => listModify bs i (fun b => .mk b.name b.label (g b.fields) b.children)
      | _ => listModify bs i (fun b => .mk b.name b.label b.fields (modifyFieldsAt b.children rest g))

/-- Replace element `j` of an array value (identity on other kinds);
the in-place write `it->v = resolved` of the C array loop. -/
def setArrElemVal (v : Value) (j : Nat) (v' : Value) : Value :=
  match v with
  | .arr xs => .arr (listModify xs j (fun _ => v'))
  | _ => v

/- ### The resolution engine  (acl.c `resolve_all_refs`, lines 986-1036) -/

/-- One array-element step of the field loop (acl.c lines 1019-1026): if
element `j` of field `i` of the block at `p` is currently a reference, try
to resolve it against the current forest and the block's context and write
the result back; otherwise change nothing. -/
def elemItem (p : List Nat) (i : Nat) (forest : List Block) (j : Nat) :
    List Block × Bool :=
  match getAt forest p with
  | none => (forest, false)
  | some b =>
      match b.fields[i]? with
      | none => (forest, false)
      | some fld =>
          match fld.value with
          | .arr xs =>
              match xs[j]? with
              | some (.ref r) =>
                  match try_resolve_value_for_field forest (ctxAt forest p) (.ref r) 0 with
                  | (true, v') =>
                      (modifyFieldsAt forest p
                        (fun fs => listModify fs i
                          (fun fl => ⟨fl.type, fl.name, setArrElemVal fl.value j v'⟩)), true)
                  | (false, _) => (forest, false)
              | _ => (forest, false)
          | _ => (forest, false)

/-- Fold step accumulating the pass's `changed` flag with `|=`, as the C
does with `any_changed |= changed`. -/
def stepOr {β : Type} (item : List Block → β → List Block × Bool)
    (st : List Block × Bool) (x : β) : List Block × Bool :=
  let r := item st.1 x
  (r.1, st.2 || r.2)

/-- One field step of the block loop (acl.c lines 1013-1028): a reference
field is resolved and overwritten on success; an array field has its
elements resolved one by one (each lookup seeing earlier writes, as in the
live C tree); other kinds are untouched. -/
def fieldItem (p : List Nat) (forest : List Block) (i : Nat) :
    List Block × Bool :=
  match getAt forest p with
  | none => (forest, false)
  | some b =>
      match b.fields[i]? with
      | none => (forest, false)
      | some fld =>
          match fld.value with
          | .ref r =>
              match try_resolve_value_for_field forest (ctxAt forest p) (.ref r) 0 with
              | (true, v') =>
                  (modifyFieldsAt forest p
                    (fun fs => listModify fs i (fun fl => ⟨fl.type, fl.name, v'⟩)), true)
              | (false, _) => (forest, false)
          | .arr xs =>
              List.foldl (stepOr (elemItem p i)) (forest, false) (List.range xs.length)
          | _ => (forest, false)

/-- All fields of the block at `p`, in order (the `for (f = cur->fields …)`
loop). -/
def blockItem (forest : List Block) (p : List Nat) : List Block × Bool :=
  match getAt forest p with
  | none => (forest, false)
  | some b => List.foldl (stepOr (fieldItem p)) (forest, false) (List.range b.fields.length)

mutual

/-- Number of blocks in a tree (used only to bound the pass loop's fuel). -/
def blockSize : Block → Nat
  | .mk _ _ _ cs => 1 + forestSize cs

/-- Number of blocks in a forest. -/
def forestSize : List Block → Nat
  | [] => 0
  | b :: rest => blockSize b + forestSize rest

end

/-- The explicit DFS stack of one pass (acl.c lines 998-1030): pop a block,
push its children (so the last child is popped first), resolve the popped
block's fields, continue.  The C loop is bounded by the number of blocks;
the embedding bounds it by fuel, which the callers instantiate with
`1 + forestSize forest`, covering the block count. -/
def passLoop : Nat → List Block × Bool → List (List Nat) → List Block × Bool
  | 0, st, _ => st
  | _ + 1, st, [] => st
  | fuel + 1, (f, ch), p :: stk =>
      match getAt f p with
      | none => passLoop fuel (f, ch) stk
      | some cur =>
          let stk' := (List.range cur.children.length).reverse.map (fun i => p ++ [i]) ++ stk
          let r := blockItem f p
          passLoop fuel (r.1, ch || r.2) stk'

/-- One full traversal pass of `resolve_all_refs` (the body of the
`for (pass …)` loop): every top-level block in order, each with a fresh
DFS stack — equivalently one stack seeded with all top-level paths. -/
def onePass (forest : List Block) : List Block × Bool :=
  passLoop (1 + forestSize forest) (forest, false)
    ((List.range forest.length).map (fun i => [i]))

/-- The pass loop of `resolve_all_refs`: up to `n` passes, stopping after
the first pass that performs no replacement. -/
def resolveLoop : Nat → List Block → List Block
  | 0, f => f
  | n + 1, f =>
      match onePass f with
      | (f', true) => resolveLoop n f'
      | (f', false) => f'

/-- `resolve_all_refs` from acl.c: `MAX_PASSES = 16`. -/
def resolve_all_refs (f : List Block) : List Block :=
  resolveLoop 16 f

/-- Same loop, also counting the passes performed (each executed pass
counts, including the final no-change pass). -/
def resolveLoopCount : Nat → List Block → List Block × Nat
  | 0, f => (f, 0)
  | n + 1, f =>
      match onePass f with
      | (f', true) =>
          let r := resolveLoopCount n f'
          (r.1, r.2 + 1)
      | (f', false) => (f', 1)

/- ### Structure preservation.

`ForestEv old new` says `new` differs from `old` at most by replacing
reference values: the forests have the same block tree (same names, labels,
child order), blockwise the same field lists (same names and type
annotations in the same order), and each field's value either is unchanged,
or was a reference, or is an array of unchanged length whose changed
elements were references.  This is exactly the set of writes
`resolve_all_refs` can perform. -/

/-- An array element may change only if it was a reference. -/
def elemEv (a b : Value) : Prop := a = b ∨ ∃ r, a = .ref r

/-- A field value may be unchanged, or replaced wholesale if it was a
reference, or an array rewritten only at reference elements. -/
def valEv (old new : Value) : Prop :=
  old = new ∨ (∃ r, old = .ref r) ∨
    (∃ xs ys, old = .arr xs ∧ new = .arr ys ∧ List.Forall₂ elemEv xs ys)

/-- Fields keep their type annotation and name; values evolve per `valEv`. -/
def fieldEv (f g : Field) : Prop :=
  f.type = g.type ∧ f.name = g.name ∧ valEv f.value g.value

mutual

/-- Blocks keep name, label, field-list and child-list shape. -/
inductive BlockEv : Block → Block → Prop where
  | mk {n : String} {l : Option String} {fs fs' : List Field} {cs cs' : List Block} :
      List.Forall₂ fieldEv fs fs' → ForestEv cs cs' →
      BlockEv (.mk n l fs cs) (.mk n l fs' cs')

/-- Pointwise `BlockEv` over a forest. -/
inductive ForestEv : List Block → List Block → Prop where
  | nil : ForestEv [] []
  | cons {b b' : Block} {bs bs' : List Block} :
      BlockEv b b' → ForestEv bs bs' → ForestEv (b :: bs) (b' :: bs')

end

theorem valEv_refl (v : Value) : valEv v v := Or.inl rfl

theorem fieldEv_refl (f : Field) : fieldEv f f := ⟨rfl, rfl, valEv_refl _⟩

theorem forall2_fieldEv_refl (fs : List Field) : List.Forall₂ fieldEv fs fs := by
  induction fs with
  | nil => exact List.Forall₂.nil
  | cons f rest ih => exact List.Forall₂.cons (fieldEv_refl f) ih

mutual

theorem blockEv_refl : ∀ b : Block, BlockEv b b
  | .mk _ _ fs cs => BlockEv.mk (forall2_fieldEv_refl fs) (forestEv_refl cs)

theorem forestEv_refl : ∀ bs : List Block, ForestEv bs bs
  | [] => ForestEv.nil
  | b :: bs => ForestEv.cons (blockEv_refl b) (forestEv_refl bs)

end

theorem elemEv_trans {a b c : Value} (h1 : elemEv a b) (h2 : elemEv b c) : elemEv a c := by
  rcases h1 with rfl | ⟨r, rfl⟩
  · exact h2
  · exact Or.inr ⟨r, rfl⟩

theorem forall2_elemEv_trans : ∀ {xs ys zs : List Value},
    List.Forall₂ elemEv xs ys → List.Forall₂ elemEv ys zs → List.Forall₂ elemEv xs zs := by
  intro xs ys zs h1
  induction h1 generalizing zs with
  | nil => intro h2; exact h2
  | cons hab h1' ih =>
      intro h2
      cases h2 with
      | cons hbc h2' => exact List.Forall₂.cons (elemEv_trans hab hbc) (ih h2')

theorem valEv_trans {a b c : Value} (h1 : valEv a b) (h2 : valEv b c) : valEv a c := by
  rcases h1 with rfl | ⟨r, rfl⟩ | ⟨xs, ys, rfl, rfl, hxy⟩
  · exact h2
  · exact Or.inr (Or.inl ⟨r, rfl⟩)
  · rcases h2 with rfl | ⟨r, h⟩ | ⟨ys', zs, hy, rfl, hyz⟩
    · exact Or.inr (Or.inr ⟨xs, ys, rfl, rfl, hxy⟩)
    · exact absurd h (by simp)
    · cases hy
      exact Or.inr (Or.inr ⟨xs, zs, rfl, rfl, forall2_elemEv_trans hxy hyz⟩)

theorem fieldEv_trans {a b c : Field} (h1 : fieldEv a b) (h2 : fieldEv b c) : fieldEv a c :=
  ⟨h1.1.trans h2.1, h1.2.1.trans h2.2.1, valEv_trans h1.2.2 h2.2.2⟩

theorem forall2_fieldEv_trans : ∀ {xs ys zs : List Field},
    List.Forall₂ fieldEv xs ys → List.Forall₂ fieldEv ys zs → List.Forall₂ fieldEv xs zs := by
  intro xs ys zs h1
  induction h1 generalizing zs with
  | nil => intro h2; exact h2
  | cons hab h1' ih =>
      intro h2
      cases h2 with
      | cons hbc h2' => exact List.Forall₂.cons (fieldEv_trans hab hbc) (ih h2')

mutual

theorem blockEv_trans : ∀ {a b c : Block}, BlockEv a b → BlockEv b c → BlockEv a c
  | _, _, _, .mk hf1 hc1, .mk hf2 hc2 =>
      .mk (forall2_fieldEv_trans hf1 hf2) (forestEv_trans hc1 hc2)

theorem forestEv_trans : ∀ {x y z : List Block}, ForestEv x y → ForestEv y z → ForestEv x z
  | _, _, _, .nil, .nil => .nil
  | _, _, _, .cons hb1 ht1, .cons hb2 ht2 =>
      .cons (blockEv_trans hb1 hb2) (forestEv_trans ht1 ht2)

end

theorem forall2_fieldEv_listModify (fs : List Field) (i : Nat) (g : Field → Field)
    (h : ∀ f, fs[i]? = some f → fieldEv f (g f)) :
    List.Forall₂ fieldEv fs (listModify fs i g) := by
  induction fs generalizing i with
  | nil => exact List.Forall₂.nil
  | cons f rest ih =>
      cases i with
      | zero => exact List.Forall₂.cons (h f (by simp)) (forall2_fieldEv_refl rest)
      | succ n =>
          exact List.Forall₂.cons (fieldEv_refl f) (ih n (fun f' hf' => h f' (by simpa using hf')))

theorem forestEv_listModify (bs : List Block) (i : Nat) (g : Block → Block)
    (h : ∀ b, bs[i]? = some b → BlockEv b (g b)) :
    ForestEv bs (listModify bs i g) := by
  induction bs generalizing i with
  | nil => exact ForestEv.nil
  | cons b rest ih =>
      cases i with
      | zero => exact ForestEv.cons (h b (by simp)) (forestEv_refl rest)
      | succ n => exact ForestEv.cons (blockEv_refl b) (ih n (fun b' hb' => h b' (by simpa using hb')))

/-- Rewriting the value of field `i` of the block at `p` by `h` keeps the
forest within `ForestEv`, provided the new value evolves from the old. -/
theorem forestEv_modifyVal : ∀ (p : List Nat) (f : List Block) (i : Nat) (h : Value → Value),
    (∀ b fld, getAt f p = some b → b.fields[i]? = some fld → valEv fld.value (h fld.value)) →
    ForestEv f (modifyFieldsAt f p
      (fun fs => listModify fs i (fun fl => ⟨fl.type, fl.name, h fl.value⟩)))
  | [], f, _, _, _ => forestEv_refl f
  | i0 :: rest, f, i, h, hpre => by
      cases rest with
      | nil =>
          show ForestEv f (listModify f i0 _)
          refine forestEv_listModify f i0 _ (fun b hb => ?_)
          cases b with
          | mk n l fs cs =>
              refine BlockEv.mk ?_ (forestEv_refl cs)
              refine forall2_fieldEv_listModify fs i _ (fun fld hfld => ?_)
              refine ⟨rfl, rfl, ?_⟩
              exact hpre (.mk n l fs cs) fld (by simp [getAt, hb]) hfld
      | cons r1 rtl =>
          show ForestEv f (listModify f i0 _)
          refine forestEv_listModify f i0 _ (fun b hb => ?_)
          cases b with
          | mk n l fs cs =>
              refine BlockEv.mk (forall2_fieldEv_refl fs) ?_
              refine forestEv_modifyVal (r1 :: rtl) cs i h (fun b' fld hb' hfld => ?_)
              exact hpre b' fld (by simp [getAt, hb]; exact hb') hfld

theorem forall2_elemEv_refl (xs : List Value) : List.Forall₂ elemEv xs xs := by
  induction xs with
  | nil => exact List.Forall₂.nil
  | cons a rest ih => exact List.Forall₂.cons (Or.inl rfl) ih

theorem forall2_elemEv_setRef : ∀ (xs : List Value) (j : Nat) (r : Ref) (v' : Value),
    xs[j]? = some (.ref r) → List.Forall₂ elemEv xs (listModify xs j (fun _ => v')) := by
  intro xs
  induction xs with
  | nil => intro j r v' h; simp at h
  | cons a rest ih =>
      intro j r v' h
      cases j with
      | zero =>
          simp at h
          exact List.Forall₂.cons (Or.inr ⟨r, h⟩) (forall2_elemEv_refl rest)
      | succ n =>
          simp at h
          exact List.Forall₂.cons (Or.inl rfl) (ih n r v' h)

theorem foldl_stepOr_flagTrue {β : Type} (item : List Block → β → List Block × Bool) :
    ∀ (xs : List β) (a : List Block), (List.foldl (stepOr item) (a, true) xs).2 = true := by
  intro xs
  induction xs with
  | nil => intro a; rfl
  | cons x rest ih =>
      intro a
      have : stepOr item (a, true) x = ((item a x).1, true) := by simp [stepOr]
      rw [List.foldl_cons, this]
      exact ih _

theorem foldl_stepOr_false {β : Type} (item : List Block → β → List Block × Bool)
    (hid : ∀ a x, (item a x).2 = false → (item a x).1 = a) :
    ∀ (xs : List β) (a f' : List Block),
      List.foldl (stepOr item) (a, false) xs = (f', false) → f' = a := by
  intro xs
  induction xs with
  | nil =>
      intro a f' h
      cases h
      rfl
  | cons x rest ih =>
      intro a f' h
      rw [List.foldl_cons] at h
      cases hc : (item a x).2 with
      | true =>
          exfalso
          have hstep : stepOr item (a, false) x = ((item a x).1, true) := by
            simp [stepOr, hc]
          rw [hstep] at h
          have := foldl_stepOr_flagTrue item rest (item a x).1
          rw [h] at this
          exact Bool.noConfusion this
      | false =>
          have hstep : stepOr item (a, false) x = ((item a x).1, false) := by
            simp [stepOr, hc]
          rw [hstep] at h
          exact (ih _ f' h).trans (hid a x hc)

theorem foldl_stepOr_ev {β : Type} (item : List Block → β → List Block × Bool)
    (hev : ∀ a x, ForestEv a (item a x).1) :
    ∀ (xs : List β) (a : List Block) (c : Bool),
      ForestEv a (List.foldl (stepOr item) (a, c) xs).1 := by
  intro xs
  induction xs with
  | nil => intro a c; exact forestEv_refl a
  | cons x rest ih =>
      intro a c
      rw [List.foldl_cons]
      have hstep : stepOr item (a, c) x = ((item a x).1, c || (item a x).2) := by
        simp [stepOr]
      rw [hstep]
      exact forestEv_trans (hev a x) (ih (item a x).1 (c || (item a x).2))

theorem elemItem_spec (p : List Nat) (i : Nat) (f : List Block) (j : Nat) :
    ((elemItem p i f j).2 = false → (elemItem p i f j).1 = f) ∧
      ForestEv f (elemItem p i f j).1 := by
  unfold elemItem
  split
  · exact ⟨fun _ => rfl, forestEv_refl f⟩
  next b hb =>
    split
    · exact ⟨fun _ => rfl, forestEv_refl f⟩
    next fld hfld =>
      split
      case _ xs harr =>
        split
        case _ r hj =>
          split
          case _ v' htr =>
            refine ⟨fun h => Bool.noConfusion h, ?_⟩
            refine forestEv_modifyVal p f i (fun v => setArrElemVal v j v')
              (fun b' fld' hb' hfld' => ?_)
            rw [hb] at hb'
            cases Option.some.inj hb'
            rw [hfld] at hfld'
            cases Option.some.inj hfld'
            rw [harr]
            exact Or.inr (Or.inr ⟨xs, _, rfl, rfl, forall2_elemEv_setRef xs j r v' hj⟩)
          case _ htr => exact ⟨fun _ => rfl, forestEv_refl f⟩
        case _ hj => exact ⟨fun _ => rfl, forestEv_refl f⟩
      case _ harr => exact ⟨fun _ => rfl, forestEv_refl f⟩

theorem fieldItem_spec (p : List Nat) (f : List Block) (i : Nat) :
    ((fieldItem p f i).2 = false → (fieldItem p f i).1 = f) ∧
      ForestEv f (fieldItem p f i).1 := by
  unfold fieldItem
  split
  · exact ⟨fun _ => rfl, forestEv_refl f⟩
  next b hb =>
    split
    · exact ⟨fun _ => rfl, forestEv_refl f⟩
    next fld hfld =>
      split
      case _ r href =>
        split
        case _ v' htr =>
          refine ⟨fun h => Bool.noConfusion h, ?_⟩
          refine forestEv_modifyVal p f i (fun _ => v') (fun b' fld' hb' hfld' => ?_)
          rw [hb] at hb'
          cases Option.some.inj hb'
          rw [hfld] at hfld'
          cases Option.some.inj hfld'
          rw [href]
          exact Or.inr (Or.inl ⟨r, rfl⟩)
        case _ htr => exact ⟨fun _ => rfl, forestEv_refl f⟩
      case _ xs harr =>
        constructor
        · intro hx
          refine foldl_stepOr_false (elemItem p i)
            (fun a x hx2 => (elemItem_spec p i a x).1 hx2) (List.range xs.length) f _ ?_
          exact Prod.ext rfl hx
        · exact foldl_stepOr_ev (elemItem p i)
            (fun a x => (elemItem_spec p i a x).2) (List.range xs.length) f false
      case _ hother => exact ⟨fun _ => rfl, forestEv_refl f⟩

theorem blockItem_spec (f : List Block) (p : List Nat) :
    ((blockItem f p).2 = false → (blockItem f p).1 = f) ∧
      ForestEv f (blockItem f p).1 := by
  unfold blockItem
  split
  · exact ⟨fun _ => rfl, forestEv_refl f⟩
  next b hb =>
    constructor
    · intro hx
      refine foldl_stepOr_false (fieldItem p)
        (fun a x hx2 => (fieldItem_spec p a x).1 hx2) (List.range b.fields.length) f _ ?_
      exact Prod.ext rfl hx
    · exact foldl_stepOr_ev (fieldItem p)
        (fun a x => (fieldItem_spec p a x).2) (List.range b.fields.length) f false

theorem passLoop_flagTrue : ∀ (fuel : Nat) (stk : List (List Nat)) (f : List Block),
    (passLoop fuel (f, true) stk).2 = true := by
  intro fuel
  induction fuel with
  | zero => intro stk f; rfl
  | succ n ih =>
      intro stk f
      cases stk with
      | nil => rfl
      | cons p rest =>
          show (match getAt f p with
            | none => passLoop n (f, true) rest
            | some cur => _).2 = true
          split
          · exact ih rest f
          · simp only [Bool.true_or]
            exact ih _ _

theorem passLoop_false : ∀ (fuel : Nat) (stk : List (List Nat)) (f f' : List Block),
    passLoop fuel (f, false) stk = (f', false) → f' = f := by
  intro fuel
  induction fuel with
  | zero =>
      intro stk f f' h
      cases h
      rfl
  | succ n ih =>
      intro stk f f' h
      cases stk with
      | nil => cases h; rfl
      | cons p rest =>
          rw [show passLoop (n + 1) (f, false) (p :: rest) =
            (match getAt f p with
              | none => passLoop n (f, false) rest
              | some cur =>
                  passLoop n ((blockItem f p).1, false || (blockItem f p).2)
                    ((List.range cur.children.length).reverse.map (fun i => p ++ [i]) ++ rest))
            from rfl] at h
          split at h
          next => exact ih rest f f' h
          next cur hcur =>
            cases hc : (blockItem f p).2 with
            | true =>
                rw [hc] at h
                simp only [Bool.false_or] at h
                have hflag := passLoop_flagTrue n
                  ((List.range cur.children.length).reverse.map (fun i => p ++ [i]) ++ rest)
                  (blockItem f p).1
                rw [h] at hflag
                exact Bool.noConfusion hflag
            | false =>
                rw [hc] at h
                simp only [Bool.false_or] at h
                exact (ih _ _ f' h).trans ((blockItem_spec f p).1 hc)

theorem passLoop_ev : ∀ (fuel : Nat) (stk : List (List Nat)) (f : List Block) (c : Bool),
    ForestEv f (passLoop fuel (f, c) stk).1 := by
  intro fuel
  induction fuel with
  | zero => intro stk f c; exact forestEv_refl f
  | succ n ih =>
      intro stk f c
      cases stk with
      | nil => exact forestEv_refl f
      | cons p rest =>
          show ForestEv f (match getAt f p with
            | none => passLoop n (f, c) rest
            | some cur => _).1
          split
          · exact ih rest f c
          · exact forestEv_trans (blockItem_spec f p).2 (ih _ _ _)

theorem onePass_false {f f' : List Block} (h : onePass f = (f', false)) : f' = f :=
  passLoop_false _ _ f f' h

theorem onePass_ev (f : List Block) : ForestEv f (onePass f).1 :=
  passLoop_ev _ _ f false

theorem resolveLoop_ev : ∀ (n : Nat) (f : List Block), ForestEv f (resolveLoop n f) := by
  intro n
  induction n with
  | zero => intro f; exact forestEv_refl f
  | succ k ih =>
      intro f
      show ForestEv f (match onePass f with
        | (f', true) => resolveLoop k f'
        | (f', false) => f')
      rcases hp : onePass f with ⟨f', ch⟩
      have hev : ForestEv f f' := by
        have := onePass_ev f
        rw [hp] at this
        exact this
      cases ch with
      | true => exact forestEv_trans hev (ih f')
      | false => exact hev

theorem resolveLoopCount_fst : ∀ (n : Nat) (f : List Block),
    (resolveLoopCount n f).1 = resolveLoop n f := by
  intro n
  induction n with
  | zero => intro f; rfl
  | succ k ih =>
      intro f
      show (match onePass f with
        | (f', true) => ((resolveLoopCount k f').1, (resolveLoopCount k f').2 + 1)
        | (f', false) => (f', 1)).1 =
        (match onePass f with
        | (f', true) => resolveLoop k f'
        | (f', false) => f')
      rcases hp : onePass f with ⟨f', ch⟩
      cases ch with
      | true => exact ih f'
      | false => rfl

theorem resolveLoopCount_le : ∀ (n : Nat) (f : List Block),
    (resolveLoopCount n f).2 ≤ n := by
  intro n
  induction n with
  | zero => intro f; exact Nat.le_refl 0
  | succ k ih =>
      intro f
      show (match onePass f with
        | (f', true) => ((resolveLoopCount k f').1, (resolveLoopCount k f').2 + 1)
        | (f', false) => (f', 1)).2 ≤ k + 1
      rcases hp : onePass f with ⟨f', ch⟩
      cases ch with
      | true => exact Nat.succ_le_succ (ih f')
      | false => exact Nat.succ_le_succ (Nat.zero_le k)

theorem resolveLoop_stop (n : Nat) (f : List Block) (h : (onePass f).2 = false) :
    resolveLoop (n + 1) f = (onePass f).1 := by
  show (match onePass f with
    | (f', true) => resolveLoop n f'
    | (f', false) => f') = (onePass f).1
  rcases hp : onePass f with ⟨f', ch⟩
  rw [hp] at h
  cases h
  rfl

/- ### First-match lemmas -/

theorem findBlockByName_first (pre : List Block) :
    ∀ (post : List Block) (b : Block) (n : String),
      b.name = n → (∀ b' ∈ pre, b'.name ≠ n) →
      findBlockByName (pre ++ b :: post) n = some b := by
  induction pre with
  | nil =>
      intro post b n hb _
      simp [findBlockByName, hb]
  | cons c rest ih =>
      intro post b n hb hpre
      have hc : c.name ≠ n := hpre c (by simp)
      simp only [List.cons_append, findBlockByName, if_neg hc]
      exact ih post b n hb (fun b' hb' => hpre b' (List.mem_cons_of_mem c hb'))

theorem findFieldByName_first (pre : List Field) :
    ∀ (post : List Field) (fld : Field) (n : String),
      fld.name = n → (∀ f' ∈ pre, f'.name ≠ n) →
      findFieldByName (pre ++ fld :: post) n = some fld := by
  induction pre with
  | nil =>
      intro post fld n hf _
      simp [findFieldByName, hf]
  | cons g rest ih =>
      intro post fld n hf hpre
      have hg : g.name ≠ n := hpre g (by simp)
      simp only [List.cons_append, findFieldByName, if_neg hg]
      exact ih post fld n hf (fun f' hf' => hpre f' (List.mem_cons_of_mem g hf'))

theorem walkParents_none : ∀ (n : Nat) (ctx : List Block),
    ctx ≠ [] → ctx.length ≤ n → walkParents ctx n = none := by
  intro n
  induction n with
  | zero =>
      intro ctx hne hlen
      cases ctx with
      | nil => exact absurd rfl hne
      | cons a rest => simp at hlen
  | succ k ih =>
      intro ctx hne hlen
      cases ctx with
      | nil => exact absurd rfl hne
      | cons a rest =>
          cases rest with
          | nil => rfl
          | cons p rtl =>
              show walkParents (p :: rtl) k = none
              exact ih (p :: rtl) (by simp) (by simp at hlen ⊢; omega)

/- ### Claim theorems for the resolution engine -/

/-- C2: `resolve_all_refs` is the 16-pass loop; the number of executed
passes never exceeds 16; and as soon as a complete pass performs zero
replacements the loop stops with that pass's result, whatever budget of
passes remains.  In particular resolution always terminates within 16
passes, cycles or not (`resolve_all_refs` is total by construction). -/
theorem c2_pass_cap_and_stop :
    ∀ (f : List Block) (n : Nat),
      resolve_all_refs f = resolveLoop 16 f ∧
      (resolveLoopCount 16 f).2 ≤ 16 ∧
      resolve_all_refs f = (resolveLoopCount 16 f).1 ∧
      ((onePass f).2 = false → resolveLoop (n + 1) f = (onePass f).1) := by
  intro f n
  exact ⟨rfl, resolveLoopCount_le 16 f, (resolveLoopCount_fst 16 f).symm,
    fun h => resolveLoop_stop n f h⟩

/-- Witness for C2 at a concrete one-block forest with no references:
the first pass reports no change and the loop stops at once. -/
theorem c2_pass_cap_and_stop_witness :
    resolveLoop 4 [Block.mk "A" none [⟨none, "v", .int 1⟩] []] =
      (onePass [Block.mk "A" none [⟨none, "v", .int 1⟩] []]).1 :=
  (c2_pass_cap_and_stop [Block.mk "A" none [⟨none, "v", .int 1⟩] []] 3).2.2.2 rfl

/-- C3: a reference that does not resolve (`resolve_ref_to_value` returns
`none`, covering missing top-level block, missing child, missing label and
missing field alike) is left behind as exactly the same `Value.ref` with
its original scope, parent levels and segments, with the changed flag
clear; there is no error path (`try_resolve_value_for_field` is total and
returns a flag, never a failure). -/
theorem c3_unresolvable_left_unchanged :
    ∀ (roots ctx : List Block) (r : Ref) (d : Nat),
      resolve_ref_to_value roots ctx r (d + 1) = none →
      try_resolve_value_for_field roots ctx (.ref r) d = (false, .ref r) := by
  intro roots ctx r d h
  simp [try_resolve_value_for_field, h]

/-- Witness for C3: a global reference to a block that does not exist. -/
theorem c3_unresolvable_left_unchanged_witness :
    resolve_ref_to_value [] [] ⟨.global, 0, [.name "A"]⟩ 1 = none ∧
    try_resolve_value_for_field [] [] (.ref ⟨.global, 0, [.name "A"]⟩) 0 =
      (false, .ref ⟨.global, 0, [.name "A"]⟩) :=
  ⟨rfl, c3_unresolvable_left_unchanged [] [] ⟨.global, 0, [.name "A"]⟩ 0 rfl⟩

/-- C5: all the engine's name lookups are first-match.  (1) The top-level /
child-block scan by name returns the first block with that name; (2) the
field scan returns the first field with that name; (3) consequently a
global reference whose head names a duplicated top-level block is resolved
against the earliest one in document order.  Local and parent references go
through the same `findBlockByName` scan inside `walkSegs`, so (1) covers
their sibling lookups as well. -/
theorem c5_first_match_policy :
    (∀ (pre post : List Block) (b : Block) (n : String),
        b.name = n → (∀ b' ∈ pre, b'.name ≠ n) →
        findBlockByName (pre ++ b :: post) n = some b) ∧
    (∀ (pre post : List Field) (fld : Field) (n : String),
        fld.name = n → (∀ f' ∈ pre, f'.name ≠ n) →
        findFieldByName (pre ++ fld :: post) n = some fld) ∧
    (∀ (pre post ctx : List Block) (b : Block) (n : String) (rest : List RefSeg) (d : Nat),
        d ≤ 64 → b.name = n → (∀ b' ∈ pre, b'.name ≠ n) →
        resolve_ref_to_value (pre ++ b :: post) ctx ⟨.global, 0, .name n :: rest⟩ d =
          walkSegs b rest) := by
  refine ⟨fun pre => findBlockByName_first pre, fun pre => findFieldByName_first pre, ?_⟩
  intro pre post ctx b n rest d hd hb hpre
  have hfind := findBlockByName_first pre post b n hb hpre
  unfold resolve_ref_to_value
  rw [if_neg (show ¬ 64 < d by omega)]
  simp [hfind]

/-- Witness for C5: two sibling top-level blocks both named `"B"`; the
scan and a global reference both pick the first. -/
theorem c5_first_match_policy_witness :
    findBlockByName
        [Block.mk "B" none [⟨none, "x", .int 1⟩] [],
         Block.mk "B" none [⟨none, "x", .int 2⟩] []] "B" =
      some (Block.mk "B" none [⟨none, "x", .int 1⟩] []) ∧
    resolve_ref_to_value
        [Block.mk "B" none [⟨none, "x", .int 1⟩] [],
         Block.mk "B" none [⟨none, "x", .int 2⟩] []] []
        ⟨.global, 0, [.name "B", .name "x"]⟩ 1 = some (.int 1) := by
  constructor
  · exact c5_first_match_policy.1 [] [Block.mk "B" none [⟨none, "x", .int 2⟩] []]
      (Block.mk "B" none [⟨none, "x", .int 1⟩] []) "B" rfl (by simp)
  · have h := c5_first_match_policy.2.2 [] [Block.mk "B" none [⟨none, "x", .int 2⟩] []]
      [] (Block.mk "B" none [⟨none, "x", .int 1⟩] []) "B" [.name "x"] 1
      (by omega) rfl (by simp)
    rw [show ([] : List Block) ++
        Block.mk "B" none [⟨none, "x", .int 1⟩] [] ::
          [Block.mk "B" none [⟨none, "x", .int 2⟩] []] =
        [Block.mk "B" none [⟨none, "x", .int 1⟩] [],
         Block.mk "B" none [⟨none, "x", .int 2⟩] []] from rfl] at h
    rw [h]
    rfl

theorem forestEv_names_labels : ∀ {x y : List Block}, ForestEv x y →
    x.map Block.name = y.map Block.name ∧ x.map Block.label = y.map Block.label := by
  intro x
  induction x with
  | nil =>
      intro y h
      cases h
      exact ⟨rfl, rfl⟩
  | cons b rest ih =>
      intro y h
      cases h with
      | cons hb ht =>
          obtain ⟨h1, h2⟩ := ih ht
          cases hb with
          | mk hf hc => exact ⟨by simp [Block.name, h1], by simp [Block.label, h2]⟩

/- ### Provenance of replacement values.

`FieldIn b fld` says `fld` is a field of `b` or of a block in `b`'s
subtree; `FieldInForest forest fld` extends this to a forest.  Every value
the engine writes comes out of `try_resolve_value_for_field`, whose
successful result is `value_deep_copy` of such a field's value
(`try_field_copy`, acl.c lines 878-884). -/

/-- A field of a block or of one of its descendants. -/
inductive FieldIn : Block → Field → Prop where
  | here {b : Block} {fld : Field} : fld ∈ b.fields → FieldIn b fld
  | child {b c : Block} {fld : Field} : c ∈ b.children → FieldIn c fld → FieldIn b fld

/-- A block equal to, or a descendant of, another block. -/
inductive BlockInB : Block → Block → Prop where
  | refl (b : Block) : BlockInB b b
  | child {b c b' : Block} : c ∈ b.children → BlockInB c b' → BlockInB b b'

/-- A field present somewhere in the forest. -/
def FieldInForest (forest : List Block) (fld : Field) : Prop :=
  ∃ t ∈ forest, FieldIn t fld

theorem blockInB_fieldIn : ∀ {t b : Block} {fld : Field},
    BlockInB t b → FieldIn b fld → FieldIn t fld := by
  intro t b fld hb
  induction hb with
  | refl => exact fun h => h
  | child hc _ ih => exact fun h => FieldIn.child hc (ih h)

theorem findBlockByName_mem : ∀ {bs : List Block} {n : String} {c : Block},
    findBlockByName bs n = some c → c ∈ bs := by
  intro bs
  induction bs with
  | nil => intro n c h; simp [findBlockByName] at h
  | cons b rest ih =>
      intro n c h
      by_cases hb : b.name = n
      · simp [findBlockByName, hb] at h
        simp [h]
      · simp [findBlockByName, hb] at h
        exact List.mem_cons_of_mem b (ih h)

theorem findBlockByLabel_mem : ∀ {bs : List Block} {l : String} {c : Block},
    findBlockByLabel bs l = some c → c ∈ bs := by
  intro bs
  induction bs with
  | nil => intro l c h; simp [findBlockByLabel] at h
  | cons b rest ih =>
      intro l c h
      by_cases hb : b.label = some l
      · simp [findBlockByLabel, hb] at h
        simp [h]
      · simp [findBlockByLabel, hb] at h
        exact List.mem_cons_of_mem b (ih h)

theorem findBlockByNameLabel_mem : ∀ {bs : List Block} {n l : String} {c : Block},
    findBlockByNameLabel bs n l = some c → c ∈ bs := by
  intro bs
  induction bs with
  | nil => intro n l c h; simp [findBlockByNameLabel] at h
  | cons b rest ih =>
      intro n l c h
      by_cases hb : b.name = n ∧ b.label = some l
      · simp [findBlockByNameLabel, hb] at h
        simp [h]
      · simp [findBlockByNameLabel, hb] at h
        exact List.mem_cons_of_mem b (ih h)

theorem findFieldByName_mem : ∀ {fs : List Field} {n : String} {f : Field},
    findFieldByName fs n = some f → f ∈ fs := by
  intro fs
  induction fs with
  | nil => intro n f h; simp [findFieldByName] at h
  | cons g rest ih =>
      intro n f h
      by_cases hg : g.name = n
      · simp [findFieldByName, hg] at h
        simp [h]
      · simp [findFieldByName, hg] at h
        exact List.mem_cons_of_mem g (ih h)

/-- A successful `walkSegs` from `b` returns a deep copy of the value of a
field of `b` or of one of `b`'s descendants. -/
theorem walkSegs_provenance : ∀ (k : Nat) (segs : List RefSeg) (b : Block) (v : Value),
    segs.length ≤ k → walkSegs b segs = some v →
    ∃ fld, FieldIn b fld ∧ v = value_deep_copy fld.value := by
  intro k
  induction k with
  | zero =>
      intro segs b v hlen h
      cases segs with
      | nil => simp [walkSegs] at h
      | cons s rest => simp at hlen
  | succ k ih =>
      intro segs b v hlen h
      cases segs with
      | nil => simp [walkSegs] at h
      | cons seg rest =>
          cases seg with
          | index l =>
              rcases hf : findBlockByLabel b.children l with _ | c
              · simp [walkSegs, hf] at h
              · simp only [walkSegs, hf] at h
                obtain ⟨fld, hin, hv⟩ := ih rest c v (by simp at hlen; omega) h
                exact ⟨fld, FieldIn.child (findBlockByLabel_mem hf) hin, hv⟩
          | name n =>
              cases rest with
              | nil =>
                  rcases hc : findBlockByName b.children n with _ | c
                  · rcases hfld : find_field_in_block b n with _ | f
                    · simp [walkSegs, hc, hfld] at h
                    · simp only [walkSegs, hc, hfld] at h
                      exact ⟨f, FieldIn.here (findFieldByName_mem hfld),
                        (Option.some.inj h).symm⟩
                  · simp [walkSegs, hc] at h
              | cons seg2 rest2 =>
                  cases seg2 with
                  | index l =>
                      rcases hf : findBlockByNameLabel b.children n l with _ | c
                      · simp [walkSegs, hf] at h
                      · simp only [walkSegs, hf] at h
                        obtain ⟨fld, hin, hv⟩ := ih rest2 c v (by simp at hlen ⊢; omega) h
                        exact ⟨fld, FieldIn.child (findBlockByNameLabel_mem hf) hin, hv⟩
                  | name m =>
                      rcases hc : findBlockByName b.children n with _ | c
                      · simp [walkSegs, hc] at h
                      · simp only [walkSegs, hc] at h
                        obtain ⟨fld, hin, hv⟩ :=
                          ih (RefSeg.name m :: rest2) c v (by simp at hlen ⊢; omega) h
                        exact ⟨fld, FieldIn.child (findBlockByName_mem hc) hin, hv⟩

/-- The parent walk only moves to blocks already in the context chain. -/
theorem walkParents_mem : ∀ (n : Nat) (ctx ctx' : List Block),
    walkParents ctx n = some ctx' → ∀ x ∈ ctx', x ∈ ctx := by
  intro n
  induction n with
  | zero =>
      intro ctx ctx' h x hx
      simp only [walkParents, Option.some.injEq] at h
      rw [h]
      exact hx
  | succ k ih =>
      intro ctx ctx' h x hx
      cases ctx with
      | nil => simp [walkParents] at h
      | cons a rest =>
          cases rest with
          | nil => simp [walkParents] at h
          | cons p rtl =>
              exact List.mem_cons_of_mem a (ih (p :: rtl) ctx' h x hx)

/-- A successful `resolve_ref_to_value` returns a deep copy of the value
of a field present under a top-level block or under a context block. -/
theorem resolve_ref_provenance :
    ∀ (roots ctx : List Block) (r : Ref) (d : Nat) (v : Value),
      resolve_ref_to_value roots ctx r d = some v →
      ∃ fld, ((∃ t ∈ roots, FieldIn t fld) ∨ (∃ b ∈ ctx, FieldIn b fld)) ∧
        v = value_deep_copy fld.value := by
  intro roots ctx r d v h
  unfold resolve_ref_to_value at h
  by_cases hd : 64 < d
  · simp [hd] at h
  · rw [if_neg hd] at h
    rcases r with ⟨scope, pl, segs⟩
    cases scope with
    | global =>
        cases segs with
        | nil => simp at h
        | cons seg rest =>
            cases seg with
            | index l => simp at h
            | name n =>
                rcases hfind : findBlockByName roots n with _ | b
                · simp [hfind] at h
                · simp only [hfind] at h
                  obtain ⟨fld, hin, hv⟩ := walkSegs_provenance rest.length rest b v le_rfl h
                  exact ⟨fld, Or.inl ⟨b, findBlockByName_mem hfind, hin⟩, hv⟩
    | loc =>
        cases ctx with
        | nil => simp at h
        | cons b rest =>
            obtain ⟨fld, hin, hv⟩ := walkSegs_provenance _ _ b v le_rfl h
            exact ⟨fld, Or.inr ⟨b, by simp, hin⟩, hv⟩
    | parent =>
        cases ctx with
        | nil => simp at h
        | cons a rest =>
            rcases hw : walkParents (a :: rest) pl with _ | ctx'
            · simp [hw] at h
            · simp only [hw] at h
              cases ctx' with
              | nil => simp at h
              | cons b tl =>
                  obtain ⟨fld, hin, hv⟩ := walkSegs_provenance _ _ b v le_rfl h
                  exact ⟨fld,
                    Or.inr ⟨b, walkParents_mem pl (a :: rest) (b :: tl) hw b (by simp), hin⟩, hv⟩

/-- Blocks along a valid path are blocks of the forest. -/
theorem chainAt_mem : ∀ (p : List Nat) (bs : List Block) (b' : Block),
    b' ∈ chainAt bs p → ∃ t ∈ bs, BlockInB t b' := by
  intro p
  induction p with
  | nil => intro bs b' h; simp [chainAt] at h
  | cons i rest ih =>
      intro bs b' h
      unfold chainAt at h
      rcases hg : bs[i]? with _ | b
      · rw [hg] at h
        simp at h
      · rw [hg] at h
        rcases List.mem_cons.mp h with rfl | hmem
        · exact ⟨b', List.getElem?_mem hg, BlockInB.refl b'⟩
        · obtain ⟨t, ht, hbi⟩ := ih b.children b' hmem
          exact ⟨b, List.getElem?_mem hg, BlockInB.child ht hbi⟩

/-- Context blocks handed to the resolver by the engine are blocks of the
live forest. -/
theorem ctxAt_mem (forest : List Block) (p : List Nat) (b' : Block)
    (h : b' ∈ ctxAt forest p) : ∃ t ∈ forest, BlockInB t b' :=
  chainAt_mem p forest b' (List.mem_reverse.mp h)

/-- C6: running the engine preserves the tree's structure, and every
replacement installs a deep copy of a value already present in the tree.
First conjunct: `ForestEv` (defined above) states that the output has the
same block tree — same top-level order, same names and labels, same
children lists blockwise, same field lists with names and type annotations
in order — and that each field's value either is unchanged, or was a
`Value.ref` (replaced at top level), or is an array of the same length
whose changed elements were references; parent links are positional in
this embedding, so an equal tree shape means equal parent links, and the
top-level name/label maps are also stated explicitly.  Second conjunct:
every write the engine performs (see `fieldItem` and `elemItem`, which
store the second component of
`try_resolve_value_for_field forest (ctxAt forest p) · 0` at the position
whose old value it replaces) happens only when the old value was a
reference, and the stored value is `value_deep_copy` of the value of a
field present in the live tree passed to the resolver. -/
theorem c6_structure_preserved :
    (∀ f : List Block,
      ForestEv f (resolve_all_refs f) ∧
      f.map Block.name = (resolve_all_refs f).map Block.name ∧
      f.map Block.label = (resolve_all_refs f).map Block.label) ∧
    (∀ (forest : List Block) (p : List Nat) (v : Value) (d : Nat) (v' : Value),
      try_resolve_value_for_field forest (ctxAt forest p) v d = (true, v') →
      (∃ r, v = .ref r) ∧
        ∃ fld, FieldInForest forest fld ∧ v' = value_deep_copy fld.value) := by
  constructor
  · intro f
    have h := resolveLoop_ev 16 f
    exact ⟨h, (forestEv_names_labels h).1, (forestEv_names_labels h).2⟩
  · intro forest p v d v' h
    cases v with
    | ref r =>
        refine ⟨⟨r, rfl⟩, ?_⟩
        rcases hres : resolve_ref_to_value forest (ctxAt forest p) r (d + 1) with _ | rv
        · simp only [try_resolve_value_for_field, hres] at h
          exact absurd (congrArg Prod.fst h) (by simp)
        · simp only [try_resolve_value_for_field, hres] at h
          have h2 : rv = v' := congrArg Prod.snd h
          subst h2
          obtain ⟨fld, hin, hv⟩ :=
            resolve_ref_provenance forest (ctxAt forest p) r (d + 1) rv hres
          rcases hin with ⟨t, ht, hfi⟩ | ⟨b, hb, hfi⟩
          · exact ⟨fld, ⟨t, ht, hfi⟩, hv⟩
          · obtain ⟨t, ht, hbi⟩ := ctxAt_mem forest p b hb
            exact ⟨fld, ⟨t, ht, blockInB_fieldIn hbi hfi⟩, hv⟩
    | int i => exact absurd h (by simp [try_resolve_value_for_field])
    | bool bo => exact absurd h (by simp [try_resolve_value_for_field])
    | str s => exact absurd h (by simp [try_resolve_value_for_field])
    | char c => exact absurd h (by simp [try_resolve_value_for_field])
    | arr xs => exact absurd h (by simp [try_resolve_value_for_field])

/-- Witness for C6's provenance conjunct: in the forest
`A { v = 1; } B { r = $A.v; }`, resolving the reference from inside `B`
(path `[1]`) replaces it with `1`, a deep copy of the field value `A.v`
present in the tree. -/
theorem c6_structure_preserved_witness :
    (∃ r, (Value.ref ⟨.global, 0, [.name "A", .name "v"]⟩ : Value) = .ref r) ∧
    ∃ fld, FieldInForest
        [Block.mk "A" none [⟨none, "v", .int 1⟩] [],
         Block.mk "B" none [⟨none, "r", .ref ⟨.global, 0, [.name "A", .name "v"]⟩⟩] []] fld ∧
      (Value.int 1) = value_deep_copy fld.value :=
  c6_structure_preserved.2
    [Block.mk "A" none [⟨none, "v", .int 1⟩] [],
     Block.mk "B" none [⟨none, "r", .ref ⟨.global, 0, [.name "A", .name "v"]⟩⟩] []]
    [1] (.ref ⟨.global, 0, [.name "A", .name "v"]⟩) 0 (.int 1) rfl

section

set_option maxHeartbeats 1600000

/-- C7 counterexample: the self-referential tree `B { a = $.a; }`.
`resolve_all_refs` runs to completion on it and returns the tree itself
(every pass replaces the reference by an equal copy of itself), yet a
second run's very first pass again reports a replacement, and the second
run performs 16 passes, every one of them reporting a change — refuting
the claim that a completed first run makes the second run replacement-free. -/
theorem c7_counterexample :
    resolve_all_refs [Block.mk "B" none [⟨none, "a", .ref ⟨.loc, 0, [.name "a"]⟩⟩] []] =
      [Block.mk "B" none [⟨none, "a", .ref ⟨.loc, 0, [.name "a"]⟩⟩] []] ∧
    (onePass (resolve_all_refs
        [Block.mk "B" none [⟨none, "a", .ref ⟨.loc, 0, [.name "a"]⟩⟩] []])).2 = true ∧
    (resolveLoopCount 16 (resolve_all_refs
        [Block.mk "B" none [⟨none, "a", .ref ⟨.loc, 0, [.name "a"]⟩⟩] []])).2 = 16 := by
  have h1 : resolve_all_refs [Block.mk "B" none [⟨none, "a", .ref ⟨.loc, 0, [.name "a"]⟩⟩] []] =
      [Block.mk "B" none [⟨none, "a", .ref ⟨.loc, 0, [.name "a"]⟩⟩] []] := rfl
  refine ⟨h1, ?_, ?_⟩
  · rw [h1]
    rfl
  · rw [h1]
    rfl

end

/-- C7 as amended: if the first run actually reached the fixed point —
its result is a tree on which a pass performs zero replacements, which is
how the run ends whenever it stops before the 16-pass cap — then a second
run performs zero replacements: it executes exactly one pass, that pass
reports no change, and the tree is returned unchanged. -/
theorem c7_amended_fixed_point_idempotent :
    ∀ f : List Block, (onePass (resolve_all_refs f)).2 = false →
      resolve_all_refs (resolve_all_refs f) = resolve_all_refs f ∧
      (resolveLoopCount 16 (resolve_all_refs f)).2 = 1 := by
  intro f h
  have h1 : onePass (resolve_all_refs f) = ((onePass (resolve_all_refs f)).1, false) :=
    Prod.ext rfl h
  have heq : (onePass (resolve_all_refs f)).1 = resolve_all_refs f := onePass_false h1
  constructor
  · show resolveLoop 16 (resolve_all_refs f) = resolve_all_refs f
    have hstop := resolveLoop_stop 15 (resolve_all_refs f) h
    rw [hstop, heq]
  · have hdef : resolveLoopCount 16 (resolve_all_refs f) =
        (match onePass (resolve_all_refs f) with
          | (f', true) => ((resolveLoopCount 15 f').1, (resolveLoopCount 15 f').2 + 1)
          | (f', false) => (f', 1)) := rfl
    rw [hdef, h1]

/-- Witness for the amended C7: the two-block chain
`A { v = 1; } B { r = $A.v; }` resolves to a fixed point (second pass of
the first run reports no change), and a second run is a single no-change
pass returning the tree unchanged. -/
theorem c7_amended_fixed_point_idempotent_witness :
    resolve_all_refs (resolve_all_refs
        [Block.mk "A" none [⟨none, "v", .int 1⟩] [],
         Block.mk "B" none [⟨none, "r", .ref ⟨.global, 0, [.name "A", .name "v"]⟩⟩] []]) =
      resolve_all_refs
        [Block.mk "A" none [⟨none, "v", .int 1⟩] [],
         Block.mk "B" none [⟨none, "r", .ref ⟨.global, 0, [.name "A", .name "v"]⟩⟩] []] ∧
    (resolveLoopCount 16 (resolve_all_refs
        [Block.mk "A" none [⟨none, "v", .int 1⟩] [],
         Block.mk "B" none [⟨none, "r", .ref ⟨.global, 0, [.name "A", .name "v"]⟩⟩] []])).2 = 1 :=
  c7_amended_fixed_point_idempotent
    [Block.mk "A" none [⟨none, "v", .int 1⟩] [],
     Block.mk "B" none [⟨none, "r", .ref ⟨.global, 0, [.name "A", .name "v"]⟩⟩] []] rfl

/-- C9: walking a reference path that consumes every segment while still
positioned at a block fails (`walkSegs _ [] = none`); in particular when
the final name segment matches a child block the walker descends into the
child and then fails, so a field whose name is shared by a sibling child
block of the same enclosing block is unreachable as the final segment —
the reference stays unchanged and unresolved. -/
theorem c9_trailing_block_not_field :
    (∀ b : Block, walkSegs b [] = none) ∧
    (∀ (b : Block) (n : String) (c : Block),
        findBlockByName b.children n = some c → walkSegs b [.name n] = none) ∧
    (∀ (roots : List Block) (ctx : List Block) (b : Block) (rest : List Block)
        (n : String) (c : Block) (d : Nat),
        ctx = b :: rest → findBlockByName b.children n = some c →
        resolve_ref_to_value roots ctx ⟨.loc, 0, [.name n]⟩ d = none ∧
        try_resolve_value_for_field roots ctx (.ref ⟨.loc, 0, [.name n]⟩) d =
          (false, .ref ⟨.loc, 0, [.name n]⟩)) := by
  have hwalk : ∀ (b : Block) (n : String) (c : Block),
      findBlockByName b.children n = some c → walkSegs b [.name n] = none := by
    intro b n c h
    simp [walkSegs, h]
  refine ⟨fun b => rfl, hwalk, ?_⟩
  intro roots ctx b rest n c d hctx hfind
  have hres : ∀ d', resolve_ref_to_value roots ctx ⟨.loc, 0, [.name n]⟩ d' = none := by
    intro d'
    unfold resolve_ref_to_value
    by_cases hd : 64 < d'
    · simp [hd]
    · subst hctx
      simp [hd, hwalk b n c hfind]
  exact ⟨hres d, by simp [try_resolve_value_for_field, hres (d + 1)]⟩

/-- Witness for C9: a block with both a child block `x` and a field `x`;
the local reference `$.x` fails to resolve and stays unchanged even though
the field exists. -/
theorem c9_trailing_block_not_field_witness :
    find_field_in_block
        (Block.mk "A" none [⟨none, "x", .int 7⟩] [Block.mk "x" none [] []]) "x" =
      some ⟨none, "x", .int 7⟩ ∧
    resolve_ref_to_value []
        [Block.mk "A" none [⟨none, "x", .int 7⟩] [Block.mk "x" none [] []]]
        ⟨.loc, 0, [.name "x"]⟩ 1 = none ∧
    try_resolve_value_for_field []
        [Block.mk "A" none [⟨none, "x", .int 7⟩] [Block.mk "x" none [] []]]
        (.ref ⟨.loc, 0, [.name "x"]⟩) 1 = (false, .ref ⟨.loc, 0, [.name "x"]⟩) := by
  refine ⟨rfl, ?_, ?_⟩
  · exact (c9_trailing_block_not_field.2.2 []
      [Block.mk "A" none [⟨none, "x", .int 7⟩] [Block.mk "x" none [] []]]
      (Block.mk "A" none [⟨none, "x", .int 7⟩] [Block.mk "x" none [] []]) []
      "x" (Block.mk "x" none [] []) 1 rfl rfl).1
  · exact (c9_trailing_block_not_field.2.2 []
      [Block.mk "A" none [⟨none, "x", .int 7⟩] [Block.mk "x" none [] []]]
      (Block.mk "A" none [⟨none, "x", .int 7⟩] [Block.mk "x" none [] []]) []
      "x" (Block.mk "x" none [] []) 1 rfl rfl).2

/-- C10: a parent-scope reference whose `^` count is at least the length of
the context chain (current block plus its ancestors) — i.e. whose levels
exceed the number of ancestors, so the walk reaches a top-level block
before consuming all levels — fails to resolve at every recursion depth,
and the value is left exactly as it was.  Since every pass resolves fields
through `try_resolve_value_for_field`, such a reference is left unchanged
in every pass. -/
theorem c10_parent_levels_overflow :
    ∀ (roots ctx : List Block) (r : Ref) (d : Nat),
      r.scope = .parent → ctx ≠ [] → ctx.length ≤ r.parent_levels →
      resolve_ref_to_value roots ctx r d = none ∧
      try_resolve_value_for_field roots ctx (.ref r) d = (false, .ref r) := by
  intro roots ctx r d hscope hne hlen
  have hres : ∀ d', resolve_ref_to_value roots ctx r d' = none := by
    intro d'
    unfold resolve_ref_to_value
    rw [hscope]
    by_cases hd : 64 < d'
    · simp [hd]
    · cases ctx with
      | nil => simp [hd]
      | cons a rest =>
          have hw := walkParents_none r.parent_levels (a :: rest) (by simp) hlen
          simp [hd, hw]
  exact ⟨hres d, by simp [try_resolve_value_for_field, hres (d + 1)]⟩

/-- Witness for C10: a top-level block (no ancestors) containing `^f`. -/
theorem c10_parent_levels_overflow_witness :
    resolve_ref_to_value [] [Block.mk "T" none [] []]
        ⟨.parent, 1, [.name "f"]⟩ 0 = none ∧
    try_resolve_value_for_field [] [Block.mk "T" none [] []]
        (.ref ⟨.parent, 1, [.name "f"]⟩) 0 = (false, .ref ⟨.parent, 1, [.name "f"]⟩) :=
  c10_parent_levels_overflow [] [Block.mk "T" none [] []]
    ⟨.parent, 1, [.name "f"]⟩ 0 rfl (by simp) (by simp)

/- ### Lexer  (acl.c lines 36-206).

The C lexer reads a fixed buffer `SRC` through the mutable cursor
`SRC_POS/LINE/COL`.  The embedding carries the unread suffix of the source
as a `List Char` together with the numeric position and the line/column
counters; `SRC` itself never changes, so the suffix determines `SRC_POS`
and the record below is the complete mutable lexer state.  Positions count
characters (the C counts bytes; the claims under verification do not
depend on the difference). -/

/-- `TokenKind` from acl.c. -/
inductive TokenKind where
  | eof
  | ident
  | intLit
  | string
  | char
  | boolLit
  | lbrace
  | rbrace
  | eq
  | semi
  | comma
  | lbrack
  | rbrack
  | dollar
  | dot
  | caret
  | typeInt
  | typeFloat
  | typeBool
  | typeString
  | unknown
deriving DecidableEq

/-- Characters that the file spells via `Char.ofNat` to keep the source
free of escape-heavy literals. -/
def backslashChar : Char := Char.ofNat 92

def squoteChar : Char := Char.ofNat 39

def nulChar : Char := Char.ofNat 0

def newlineChar : Char := Char.ofNat 10

def tabChar : Char := Char.ofNat 9

def crChar : Char := Char.ofNat 13

def vtabChar : Char := Char.ofNat 11

def ffChar : Char := Char.ofNat 12

/-- `Token` from acl.c: kind, optional owned text, numeric/boolean/char
payloads, and source position. -/
structure Token where
  kind : TokenKind
  text : Option String
  ival : Int
  bval : Bool
  cval : Char
  pos : Nat
  line : Nat
  col : Nat
deriving DecidableEq

/-- The all-zero token `{0}` used by `memset` in the C code
(`TOK_EOF` is 0). -/
def emptyToken : Token := ⟨.eof, none, 0, false, nulChar, 0, 0, 0⟩

/-- The mutable lexer state: unread source suffix, `SRC_POS`, `LINE`, `COL`. -/
structure LexSt where
  rem : List Char
  pos : Nat
  line : Nat
  col : Nat
deriving DecidableEq

/-- `adv_pos` from acl.c: newline bumps the line and resets the column. -/
def advLC (line col : Nat) (c : Char) : Nat × Nat :=
  if c = newlineChar then (line + 1, 1) else (line, col + 1)

/-- C `isspace` on the default locale (space, tab, newline, vertical tab,
form feed, carriage return). -/
def isSpaceC (c : Char) : Bool :=
  c = ' ' || c = tabChar || c = newlineChar || c = crChar || c = vtabChar || c = ffChar

/-- C `isdigit`. -/
def isDigitC (c : Char) : Bool := '0' ≤ c && c ≤ '9'

/-- C `isalpha` (ASCII). -/
def isAlphaC (c : Char) : Bool := ('A' ≤ c && c ≤ 'Z') || ('a' ≤ c && c ≤ 'z')

/-- Identifier continuation: `isalnum(c) || c == '_'`. -/
def isIdentCont (c : Char) : Bool := isAlphaC c || isDigitC c || c = '_'

/-- The `//` comment loop (acl.c lines 93-97): consume up to, but not
including, the next newline or end of input. -/
def skipLine : List Char → Nat → Nat → Nat → LexSt
  | [], pos, line, col => ⟨[], pos, line, col⟩
  | c :: rest, pos, line, col =>
      if c = newlineChar then ⟨c :: rest, pos, line, col⟩
      else skipLine rest (pos + 1) (advLC line col c).1 (advLC line col c).2

/-- The `/*` comment scan loop (acl.c line 100): consume while at least two
characters remain and they are not `*/`.  Note this leaves the final
character of the input unconsumed when no `*/` occurs. -/
def skipBlockBody : List Char → Nat → Nat → Nat → LexSt
  | c0 :: c1 :: rest, pos, line, col =>
      if c0 = '*' ∧ c1 = '/' then ⟨c0 :: c1 :: rest, pos, line, col⟩
      else skipBlockBody (c1 :: rest) (pos + 1) (advLC line col c0).1 (advLC line col c0).2
  | rem, pos, line, col => ⟨rem, pos, line, col⟩

/-- The closing `*/` consumption (acl.c line 101): only when at least two
characters remain. -/
def skipBlockClose (st : LexSt) : LexSt :=
  match st.rem with
  | c0 :: c1 :: rest =>
      let a1 := advLC st.line st.col c0
      let a2 := advLC a1.1 a1.2 c1
      ⟨rest, st.pos + 2, a2.1, a2.2⟩
  | _ => st

/-- The outer loop of `skip_spaces_and_comments` (acl.c lines 88-106),
bounded by fuel; each continuing iteration consumes at least one
character, so `rem.length + 1` fuel always suffices (see the wrapper). -/
def skipSC : Nat → LexSt → LexSt
  | 0, st => st
  | fuel + 1, st =>
      match st.rem with
      | [] => st
      | c :: rest =>
          if isSpaceC c then
            skipSC fuel ⟨rest, st.pos + 1, (advLC st.line st.col c).1, (advLC st.line st.col c).2⟩
          else if c = '/' then
            match rest with
            | '/' :: rest2 =>
                skipSC fuel (skipLine rest2 (st.pos + 2) st.line (st.col + 2))
            | '*' :: rest2 =>
                skipSC fuel (skipBlockClose (skipBlockBody rest2 (st.pos + 2) st.line (st.col + 2)))
            | _ => st
          else st

/-- `skip_spaces_and_comments` from acl.c. -/
def skip_spaces_and_comments (st : LexSt) : LexSt :=
  skipSC (st.rem.length + 1) st

/-- The escape map of `parse_escape_char` (acl.c lines 108-121); the C
function also consumes the escaped character, which the callers below do
explicitly. -/
def parse_escape_char (e : Char) : Char :=
  if e = 'n' then newlineChar
  else if e = 't' then tabChar
  else if e = 'r' then crChar
  else if e = backslashChar then backslashChar
  else if e = squoteChar then squoteChar
  else if e = '"' then '"'
  else if e = '0' then nulChar
  else e

/-- The string-literal scan (acl.c lines 143-160), after the opening quote
has been consumed: read until a closing quote or end of input, resolving
escapes; an unterminated string is tolerated. -/
def scanStr : List Char → Nat → Nat → Nat → List Char → List Char × LexSt
  | [], pos, line, col, acc => (acc, ⟨[], pos, line, col⟩)
  | ch :: rest, pos, line, col, acc =>
      let a1 := advLC line col ch
      if ch = '"' then (acc, ⟨rest, pos + 1, a1.1, a1.2⟩)
      else if ch = backslashChar then
        match rest with
        | [] => scanStr [] (pos + 1) a1.1 a1.2 (acc ++ [backslashChar])
        | e :: rest2 =>
            let a2 := advLC a1.1 a1.2 e
            scanStr rest2 (pos + 2) a2.1 a2.2 (acc ++ [parse_escape_char e])
      else scanStr rest (pos + 1) a1.1 a1.2 (acc ++ [ch])

/-- The char-literal scan (acl.c lines 163-170), after the opening quote
has been consumed: one escaped-or-literal character (NUL at end of input),
then an optional closing quote. -/
def scanCharLit (rem : List Char) (pos line col : Nat) : Char × LexSt :=
  let r1 : Char × LexSt :=
    match rem with
    | [] => (nulChar, ⟨[], pos, line, col⟩)
    | c :: rest =>
        if c = backslashChar then
          match rest with
          | [] => (backslashChar, ⟨[], pos + 1, (advLC line col c).1, (advLC line col c).2⟩)
          | e :: rest2 =>
              let a1 := advLC line col c
              let a2 := advLC a1.1 a1.2 e
              (parse_escape_char e, ⟨rest2, pos + 2, a2.1, a2.2⟩)
        else (c, ⟨rest, pos + 1, (advLC line col c).1, (advLC line col c).2⟩)
  match r1.2.rem with
  | c :: rest =>
      if c = squoteChar then
        (r1.1, ⟨rest, r1.2.pos + 1, (advLC r1.2.line r1.2.col c).1, (advLC r1.2.line r1.2.col c).2⟩)
      else r1
  | [] => r1

/-- The identifier scan (acl.c lines 173-177): consume while alphanumeric
or underscore, accumulating the text. -/
def scanIdent : List Char → Nat → Nat → Nat → List Char → List Char × LexSt
  | [], pos, line, col, acc => (acc, ⟨[], pos, line, col⟩)
  | c :: rest, pos, line, col, acc =>
      if isIdentCont c then
        scanIdent rest (pos + 1) (advLC line col c).1 (advLC line col c).2 (acc ++ [c])
      else (acc, ⟨c :: rest, pos, line, col⟩)

/-- The digit scan of the integer-literal case (acl.c lines 190-199). -/
def scanDigits : List Char → Nat → Nat → Nat → List Char → List Char × LexSt
  | [], pos, line, col, acc => (acc, ⟨[], pos, line, col⟩)
  | c :: rest, pos, line, col, acc =>
      if isDigitC c then
        scanDigits rest (pos + 1) (advLC line col c).1 (advLC line col c).2 (acc ++ [c])
      else (acc, ⟨c :: rest, pos, line, col⟩)

/-- Decimal value of a digit string (the `strtol` call; the C clamps at the
`long` range on overflow, which no verified claim exercises). -/
def decimalValue (ds : List Char) : Int :=
  ds.foldl (fun acc d => acc * 10 + ((d.toNat - 48 : Nat) : Int)) 0

/-- `next_token_internal` from acl.c (lines 123-206): skip blanks and
comments, record the token position, then dispatch on the first character:
punctuation, string literal, char literal, identifier/keyword/boolean,
integer literal, otherwise an unknown token.  The lexer never fails. -/
def next_token_internal (st0 : LexSt) : Token × LexSt :=
  let st := skip_spaces_and_comments st0
  let base : Token := ⟨.eof, none, 0, false, nulChar, st.pos, st.line, st.col⟩
  match st.rem with
  | [] => (base, st)
  | c :: rest =>
      let st1 : LexSt := ⟨rest, st.pos + 1, (advLC st.line st.col c).1, (advLC st.line st.col c).2⟩
      if c = '{' then ({ base with kind := .lbrace }, st1)
      else if c = '}' then ({ base with kind := .rbrace }, st1)
      else if c = '=' then ({ base with kind := .eq }, st1)
      else if c = ';' then ({ base with kind := .semi }, st1)
      else if c = ',' then ({ base with kind := .comma }, st1)
      else if c = '[' then ({ base with kind := .lbrack }, st1)
      else if c = ']' then ({ base with kind := .rbrack }, st1)
      else if c = '$' then ({ base with kind := .dollar }, st1)
      else if c = '.' then ({ base with kind := .dot }, st1)
      else if c = '^' then ({ base with kind := .caret }, st1)
      else if c = '"' then
        let r := scanStr rest st1.pos st1.line st1.col []
        ({ base with kind := .string, text := some (String.mk r.1) }, r.2)
      else if c = squoteChar then
        let r := scanCharLit rest st1.pos st1.line st1.col
        ({ base with kind := .char, cval := r.1 }, r.2)
      else if isAlphaC c || c = '_' then
        let r := scanIdent rest st1.pos st1.line st1.col [c]
        let id := String.mk r.1
        if id = "int" then ({ base with kind := .typeInt }, r.2)
        else if id = "float" then ({ base with kind := .typeFloat }, r.2)
        else if id = "bool" then ({ base with kind := .typeBool }, r.2)
        else if id = "string" then ({ base with kind := .typeString }, r.2)
        else if id = "true" then ({ base with kind := .boolLit, bval := true }, r.2)
        else if id = "false" then ({ base with kind := .boolLit, bval := false }, r.2)
        else ({ base with kind := .ident, text := some id }, r.2)
      else if isDigitC c then
        let r := scanDigits rest st1.pos st1.line st1.col [c]
        ({ base with kind := .intLit, ival := decimalValue r.1 }, r.2)
      else if c = '-' then
        match rest with
        | d :: _ =>
            if isDigitC d then
              let r := scanDigits rest st1.pos st1.line st1.col []
              ({ base with kind := .intLit, ival := -(decimalValue r.1) }, r.2)
            else ({ base with kind := .unknown }, st1)
        | [] => ({ base with kind := .unknown }, st1)
      else ({ base with kind := .unknown }, st1)

/- ### Token cursor and snapshot lookahead  (acl.c lines 210-304) -/

/-- The complete mutable parser-cursor state: the lexer state plus the
one-token buffer `BUF/HAVE_BUF` and the pushed-back token slot
`SAVED/HAVE_SAVED` (absent flags become `none`; the C zeroes the payload
when a flag is clear, so `Option` carries the same information). -/
structure PSt where
  lex : LexSt
  buf : Option Token
  saved : Option Token
deriving DecidableEq

/-- `get_token_shared` from acl.c: take the pushed-back token if present,
else pull one from the lexer. -/
def get_token_shared (st : PSt) : Token × PSt :=
  match st.saved with
  | some t => (t, { st with saved := none })
  | none =>
      let r := next_token_internal st.lex
      (r.1, { st with lex := r.2 })

/-- `cur_token` from acl.c: lazily fetched and cached current token. -/
def cur_token (st : PSt) : Token × PSt :=
  match st.buf with
  | some t => (t, st)
  | none =>
      let r := get_token_shared st
      (r.1, { r.2 with buf := some r.1 })

/-- `consume_token` from acl.c: drop the buffered token, or pull and drop. -/
def consume_token (st : PSt) : PSt :=
  match st.buf with
  | some _ => { st with buf := none }
  | none => (get_token_shared st).2

/-- `take_token` from acl.c: an owned copy of the current token, consuming
it (text duplication is the identity in value semantics). -/
def take_token (st : PSt) : Token × PSt :=
  let r := cur_token st
  (r.1, consume_token r.2)

/-- `Snapshot` from acl.c (lines 250-258): `src_pos/line/col` (carried here
inside the lexer state, whose suffix is determined by `src_pos`), the
saved-token slot and the buffered token, each with its flag; the text
duplication performed by `snapshot_begin` is the identity in value
semantics. -/
structure Snapshot where
  lex : LexSt
  saved : Option Token
  buf : Option Token

/-- `snapshot_begin` from acl.c: record every mutable cursor field. -/
def snapshot_begin (st : PSt) : Snapshot :=
  ⟨st.lex, st.saved, st.buf⟩

/-- `snapshot_restore` from acl.c: overwrite every mutable cursor field
from the snapshot (the C first frees the tokens being overwritten, which
has no value-level content). -/
def snapshot_restore (s : Snapshot) : PSt :=
  ⟨s.lex, s.buf, s.saved⟩

/-- The pulling loop of `peek_n_safe` (acl.c lines 294-299): pull `n`
tokens through `get_token_shared`, keeping the last (`out = {0}` when
`n = 0`). -/
def peekPull : Nat → PSt → Token × PSt
  | 0, st => (emptyToken, st)
  | n + 1, st =>
      let r := get_token_shared st
      match n with
      | 0 => r
      | m + 1 => peekPull (m + 1) r.2

/-- `peek_n_safe` from acl.c: snapshot, pull `n` tokens, restore. -/
def peek_n_safe (st : PSt) (n : Nat) : Token × PSt :=
  let s := snapshot_begin st
  let r := peekPull n st
  (r.1, snapshot_restore s)

/-- `peek1` from acl.c. -/
def peek1 (st : PSt) : Token × PSt := peek_n_safe st 1

/-- `peek2` from acl.c. -/
def peek2 (st : PSt) : Token × PSt := peek_n_safe st 2

/-- The byte-order mark, recognized and skipped by `parse_all`. -/
def bomChar : Char := Char.ofNat 0xFEFF

/-- The initial lexer state of `parse_all` (acl.c lines 777-784),
including the BOM skip. -/
def lexInit (text : String) : LexSt :=
  match text.data with
  | [] => ⟨[], 0, 1, 1⟩
  | c :: rest => if c = bomChar then ⟨rest, 1, 1, 1⟩ else ⟨c :: rest, 0, 1, 1⟩

/-- The initial cursor state of `parse_all`: no buffered, no saved token. -/
def parserInit (text : String) : PSt :=
  ⟨lexInit text, none, none⟩

/- ### Recursive-descent parser  (acl.c lines 508-799).

Grammar violations call `parse_error_token`, which prints and exits; the
embedding returns `Except.error` carrying the offending token and the
expectation text (slightly reworded).  The C recursion is bounded by the
input; the embedding threads explicit fuel, decremented on every call, and
the concrete theorems instantiate it amply.  `parse_block_recursive` takes
a parent pointer in C only to store it in the new block; parents are
positional here, so the argument disappears. -/

/-- A fatal parse error: offending token and expectation
(`parse_error_token`, acl.c lines 324-331). -/
structure PErr where
  tok : Token
  expect : String
deriving DecidableEq

/-- The caret-counting loop of `parse_reference_value` (acl.c line 578). -/
def countCarets : Nat → PSt → Nat × PSt
  | 0, st => (0, st)
  | fuel + 1, st =>
      let r := cur_token st
      if r.1.kind = .caret then
        let r2 := countCarets fuel (consume_token r.2)
        (r2.1 + 1, r2.2)
      else (0, r.2)

/-- The decision the parser takes upon an identifier inside a block body,
from the lookahead tokens `n1 = peek1()` and `n2 = peek2()` — the if/else
chain of `parse_block_recursive` (acl.c lines 743-766). -/
inductive MemberKind where
  | inferredField
  | childBlock
  | labeledChild
  | errCase
deriving DecidableEq

/-- The lookahead dispatch of `parse_block_recursive` (acl.c lines
743-766): `n1 = '='` is an inferred field, `n1 = '{'` an unlabeled child
block, `n1` a string with `n2 = '{'` a labeled child block, anything else
the syntax-error case. -/
def memberAction (n1 n2 : Token) : MemberKind :=
  if n1.kind = .eq then .inferredField
  else if n1.kind = .lbrace then .childBlock
  else if n1.kind = .string ∧ n2.kind = .lbrace then .labeledChild
  else .errCase

mutual

/-- `parse_ref_path_segments` from acl.c (lines 511-541): repeated
`.ident` and `["string"]` segments. -/
def parse_ref_path_segments : Nat → PSt → Except PErr (List RefSeg × PSt)
  | 0, _ => .error ⟨emptyToken, "fuel exhausted"⟩
  | fuel + 1, st =>
      let r := cur_token st
      if r.1.kind = .dot then
        let st := consume_token r.2
        let r2 := cur_token st
        if r2.1.kind = .ident then
          let r3 := take_token r2.2
          match parse_ref_path_segments fuel r3.2 with
          | .ok (rest, st') => .ok (RefSeg.name (r3.1.text.getD "") :: rest, st')
          | .error e => .error e
        else .error ⟨r2.1, "identifier after dot in reference"⟩
      else if r.1.kind = .lbrack then
        let st := consume_token r.2
        let r2 := cur_token st
        if r2.1.kind = .string then
          let r3 := take_token r2.2
          let r4 := cur_token r3.2
          if r4.1.kind = .rbrack then
            let st := consume_token r4.2
            match parse_ref_path_segments fuel st with
            | .ok (rest, st') => .ok (RefSeg.index (r3.1.text.getD "") :: rest, st')
            | .error e => .error e
          else .error ⟨r4.1, "closing bracket after string index in reference"⟩
        else .error ⟨r2.1, "string index in reference"⟩
      else .ok ([], r.2)

/-- `parse_reference_value` from acl.c (lines 544-593): `$Name…` global,
`$.name…` local, `^…name…` parent references. -/
def parse_reference_value : Nat → PSt → Except PErr (Value × PSt)
  | 0, _ => .error ⟨emptyToken, "fuel exhausted"⟩
  | fuel + 1, st =>
      let r := cur_token st
      if r.1.kind = .dollar then
        let st := consume_token r.2
        let rn := cur_token st
        if rn.1.kind = .dot then
          let st := consume_token rn.2
          let rid := cur_token st
          if rid.1.kind = .ident then
            let rtk := take_token rid.2
            match parse_ref_path_segments fuel rtk.2 with
            | .ok (rest, st') =>
                .ok (.ref ⟨.loc, 0, RefSeg.name (rtk.1.text.getD "") :: rest⟩, st')
            | .error e => .error e
          else .error ⟨rid.1, "identifier after dollar-dot"⟩
        else
          if rn.1.kind = .ident then
            let rtk := take_token rn.2
            match parse_ref_path_segments fuel rtk.2 with
            | .ok (rest, st') =>
                .ok (.ref ⟨.global, 0, RefSeg.name (rtk.1.text.getD "") :: rest⟩, st')
            | .error e => .error e
          else .error ⟨rn.1, "identifier after dollar"⟩
      else if r.1.kind = .caret then
        let rc := countCarets (fuel + 1) r.2
        let levels := rc.1
        let rid := cur_token rc.2
        if rid.1.kind = .ident then
          let rtk := take_token rid.2
          match parse_ref_path_segments fuel rtk.2 with
          | .ok (rest, st') =>
              .ok (.ref ⟨.parent, levels, RefSeg.name (rtk.1.text.getD "") :: rest⟩, st')
          | .error e => .error e
        else .error ⟨rid.1, "identifier after caret in parent reference"⟩
      else .error ⟨r.1, "reference starting with dollar or caret"⟩

/-- `parse_array_literal_final` from acl.c (lines 599-613): a braced,
comma-separated, possibly empty list of values. -/
def parse_array_literal_final : Nat → PSt → Except PErr (Value × PSt)
  | 0, _ => .error ⟨emptyToken, "fuel exhausted"⟩
  | fuel + 1, st =>
      let st := consume_token st
      let r := cur_token st
      if r.1.kind = .rbrace then .ok (.arr [], consume_token r.2)
      else parse_array_items fuel r.2 []

/-- The element loop of `parse_array_literal_final`. -/
def parse_array_items : Nat → PSt → List Value → Except PErr (Value × PSt)
  | 0, _, _ => .error ⟨emptyToken, "fuel exhausted"⟩
  | fuel + 1, st, acc =>
      match parse_literal_value_final fuel st with
      | .error e => .error e
      | .ok (item, st) =>
          let r := cur_token st
          if r.1.kind = .comma then parse_array_items fuel (consume_token r.2) (acc ++ [item])
          else if r.1.kind = .rbrace then .ok (.arr (acc ++ [item]), consume_token r.2)
          else .error ⟨r.1, "comma or closing brace in array literal"⟩

/-- `parse_literal_value_final` from acl.c (lines 615-646): int, bool,
string, char, array, or reference. -/
def parse_literal_value_final : Nat → PSt → Except PErr (Value × PSt)
  | 0, _ => .error ⟨emptyToken, "fuel exhausted"⟩
  | fuel + 1, st =>
      let r := cur_token st
      if r.1.kind = .intLit then
        let rt := take_token r.2
        .ok (.int rt.1.ival, rt.2)
      else if r.1.kind = .boolLit then
        let rt := take_token r.2
        .ok (.bool rt.1.bval, rt.2)
      else if r.1.kind = .string then
        let rt := take_token r.2
        .ok (.str (rt.1.text.getD ""), rt.2)
      else if r.1.kind = .char then
        let rt := take_token r.2
        .ok (.char rt.1.cval, rt.2)
      else if r.1.kind = .lbrace then parse_array_literal_final fuel r.2
      else if r.1.kind = .dollar ∨ r.1.kind = .caret then parse_reference_value fuel r.2
      else .error ⟨r.1, "literal or reference"⟩

/-- `parse_field_with_type` from acl.c (lines 650-671):
`name = value ;` with an already-known optional type annotation. -/
def parse_field_with_type : Nat → Option String → PSt → Except PErr (Field × PSt)
  | 0, _, _ => .error ⟨emptyToken, "fuel exhausted"⟩
  | fuel + 1, tn, st =>
      let r := cur_token st
      if r.1.kind = .ident then
        let rname := take_token r.2
        let re := cur_token rname.2
        if re.1.kind = .eq then
          let st := consume_token re.2
          match parse_literal_value_final fuel st with
          | .error e => .error e
          | .ok (v, st) =>
              let rs := cur_token st
              if rs.1.kind = .semi then
                .ok (⟨tn, rname.1.text.getD "", v⟩, consume_token rs.2)
              else .error ⟨rs.1, "semicolon after field value"⟩
        else .error ⟨re.1, "equals sign after field name"⟩
      else .error ⟨r.1, "field name identifier"⟩

/-- `parse_field_from_type_token` from acl.c (lines 674-692): the type
keyword, an optional `[]`, then the field proper. -/
def parse_field_from_type_token : Nat → TokenKind → PSt → Except PErr (Field × PSt)
  | 0, _, _ => .error ⟨emptyToken, "fuel exhausted"⟩
  | fuel + 1, tk, st =>
      let tn : Option String :=
        if tk = .typeInt then some "int"
        else if tk = .typeFloat then some "float"
        else if tk = .typeBool then some "bool"
        else if tk = .typeString then some "string"
        else none
      let st := consume_token st
      let r := cur_token st
      if r.1.kind = .lbrack then
        let st := consume_token r.2
        let r2 := cur_token st
        if r2.1.kind = .rbrack then
          parse_field_with_type fuel tn (consume_token r2.2)
        else .error ⟨r2.1, "closing bracket after opening bracket in array type"⟩
      else parse_field_with_type fuel tn r.2

/-- `parse_block_recursive` from acl.c (lines 696-773): block name,
optional string label, `{`, members, `}`. -/
def parse_block_recursive : Nat → PSt → Except PErr (Block × PSt)
  | 0, _ => .error ⟨emptyToken, "fuel exhausted"⟩
  | fuel + 1, st =>
      let r := cur_token st
      if r.1.kind = .ident then
        let rname := take_token r.2
        let ra := cur_token rname.2
        let labSt : Option String × PSt :=
          if ra.1.kind = .string then
            let rl := take_token ra.2
            (some (rl.1.text.getD ""), rl.2)
          else (none, ra.2)
        let rb := cur_token labSt.2
        if rb.1.kind = .lbrace then
          let st := consume_token rb.2
          parse_block_body fuel st (rname.1.text.getD "") labSt.1 [] []
        else .error ⟨rb.1, "opening brace after block name or label"⟩
      else .error ⟨r.1, "block name identifier"⟩

/-- The member loop of `parse_block_recursive` (acl.c lines 724-770):
type-keyword members are typed fields; identifier members are dispatched
on the two lookahead tokens through `memberAction`, which either parses an
inferred field, re-parses the same tokens as a child block, or reports a
syntax error citing the identifier token itself. -/
def parse_block_body : Nat → PSt → String → Option String → List Field → List Block →
    Except PErr (Block × PSt)
  | 0, _, _, _, _, _ => .error ⟨emptyToken, "fuel exhausted"⟩
  | fuel + 1, st, bname, blabel, accF, accC =>
      let r := cur_token st
      let cur := r.1
      let st := r.2
      if cur.kind = .rbrace then
        .ok (.mk bname blabel accF accC, consume_token st)
      else if cur.kind = .eof then .error ⟨cur, "unexpected EOF in block"⟩
      else if cur.kind = .typeInt ∨ cur.kind = .typeFloat ∨ cur.kind = .typeBool ∨
          cur.kind = .typeString then
        match parse_field_from_type_token fuel cur.kind st with
        | .error e => .error e
        | .ok (f, st) => parse_block_body fuel st bname blabel (accF ++ [f]) accC
      else if cur.kind = .ident then
        let p1 := peek1 st
        let p2 := peek2 p1.2
        match memberAction p1.1 p2.1 with
        | .inferredField =>
            match parse_field_with_type fuel none p2.2 with
            | .error e => .error e
            | .ok (f, st) => parse_block_body fuel st bname blabel (accF ++ [f]) accC
        | .childBlock =>
            match parse_block_recursive fuel p2.2 with
            | .error e => .error e
            | .ok (c, st) => parse_block_body fuel st bname blabel accF (accC ++ [c])
        | .labeledChild =>
            match parse_block_recursive fuel p2.2 with
            | .error e => .error e
            | .ok (c, st) => parse_block_body fuel st bname blabel accF (accC ++ [c])
        | .errCase =>
            .error ⟨cur, "expected equals sign for field or opening brace for child block"⟩
      else .error ⟨cur, "typed field, inferred field, or child block"⟩

end

/-- The top-level loop of `parse_all` (acl.c lines 786-797): blocks until
end of input. -/
def parse_top : Nat → PSt → List Block → Except PErr (List Block)
  | 0, _, _ => .error ⟨emptyToken, "fuel exhausted"⟩
  | fuel + 1, st, acc =>
      let r := cur_token st
      if r.1.kind = .eof then .ok acc
      else if r.1.kind = .ident then
        match parse_block_recursive fuel r.2 with
        | .error e => .error e
        | .ok (b, st) => parse_top fuel st (acc ++ [b])
      else .error ⟨r.1, "top-level block name identifier"⟩

/-- `parse_all` from acl.c: initialize the cursor over the text (skipping
a BOM) and parse the document, with fuel bounding the recursion. -/
def parse_all (text : String) (fuel : Nat) : Except PErr (List Block) :=
  parse_top fuel (parserInit text) []

/-- The offending token of a parse error, if any. -/
def errTok : Except PErr (List Block) → Option Token
  | .error e => some e.tok
  | .ok _ => none

/- ### Claim theorems for lexer, lookahead and parser -/

/-- C1: the member decision after an identifier is taken from the next one
or two tokens alone, exactly as specified: `=` selects the inferred field,
`{` the unlabeled child block, a string followed by `{` the labeled child
block, and everything else the error case — whose error in
`parse_block_body` cites the identifier token itself.  The end-to-end
parses of the three spec examples and the error example confirm the
dispatch through the full lexer/lookahead/parser pipeline. -/
theorem c1_lookahead_disambiguation :
    (∀ n1 n2 : Token,
        (memberAction n1 n2 = .inferredField ↔ n1.kind = .eq) ∧
        (memberAction n1 n2 = .childBlock ↔ (n1.kind ≠ .eq ∧ n1.kind = .lbrace)) ∧
        (memberAction n1 n2 = .labeledChild ↔
          (n1.kind ≠ .eq ∧ n1.kind ≠ .lbrace ∧ n1.kind = .string ∧ n2.kind = .lbrace)) ∧
        (memberAction n1 n2 = .errCase ↔
          (n1.kind ≠ .eq ∧ n1.kind ≠ .lbrace ∧ ¬(n1.kind = .string ∧ n2.kind = .lbrace)))) ∧
    parse_all "A \x7b x = 1; \x7d" 1000 = .ok [Block.mk "A" none [⟨none, "x", .int 1⟩] []] ∧
    parse_all "A \x7b x \x7b y = 1; \x7d \x7d" 1000 =
      .ok [Block.mk "A" none [] [Block.mk "x" none [⟨none, "y", .int 1⟩] []]] ∧
    parse_all "A \x7b x \"lbl\" \x7b y = 1; \x7d \x7d" 1000 =
      .ok [Block.mk "A" none [] [Block.mk "x" (some "lbl") [⟨none, "y", .int 1⟩] []]] ∧
    (errTok (parse_all "A \x7b x 1; \x7d" 1000)).map (fun t => (t.kind, t.text)) =
      some (.ident, some "x") := by
  refine ⟨?_, rfl, rfl, rfl, rfl⟩
  intro n1 n2
  unfold memberAction
  by_cases h1 : n1.kind = .eq
  · simp [h1]
  · by_cases h2 : n1.kind = .lbrace
    · simp [h1, h2]
    · by_cases h3 : n1.kind = .string ∧ n2.kind = .lbrace
      · obtain ⟨h3a, h3b⟩ := h3
        simp [h1, h2, h3a, h3b]
      · simp [h1, h2, h3]

/-- C4: `peek_n_safe` restores the complete observable cursor state: after
a peek of any `n ≥ 1` the state — source suffix and position, line,
column, the cached current token and the pending-token slot, with their
text — equals the state before the peek (stated both as record equality
and fieldwise).  Hence parsing after a peek consumes exactly the token
sequence it would have consumed without the peek. -/
theorem c4_peek_restores_state :
    ∀ (st : PSt) (n : Nat), 1 ≤ n →
      (peek_n_safe st n).2 = st ∧
      (peek_n_safe st n).2.lex.rem = st.lex.rem ∧
      (peek_n_safe st n).2.lex.pos = st.lex.pos ∧
      (peek_n_safe st n).2.lex.line = st.lex.line ∧
      (peek_n_safe st n).2.lex.col = st.lex.col ∧
      (peek_n_safe st n).2.buf = st.buf ∧
      (peek_n_safe st n).2.saved = st.saved := by
  intro st n _
  have h : (peek_n_safe st n).2 = st := by
    cases st
    rfl
  exact ⟨h, by rw [h], by rw [h], by rw [h], by rw [h], by rw [h], by rw [h]⟩

/-- Witness for C4: a two-token peek from a mid-parse state that has a
buffered current token. -/
theorem c4_peek_restores_state_witness :
    (peek_n_safe (cur_token (parserInit "A \x7b x = 1; \x7d")).2 2).2 =
      (cur_token (parserInit "A \x7b x = 1; \x7d")).2 :=
  (c4_peek_restores_state (cur_token (parserInit "A \x7b x = 1; \x7d")).2 2 (by omega)).1

/-- C8 (code behavior at the failing input): on `"/*x"` — a block comment
opener with no closing `*/` — the lexer does not treat the whole remainder
as comment: the scan loop stops once fewer than two characters remain, so
the final character `x` escapes the comment and is tokenized as the
identifier `x`, not end-of-input.  Only when nothing (or whitespace)
follows the comment body, as in `"/*"`, is the next token end-of-input.
A longer input shows the same: everything but the last character is
skipped. -/
theorem c8_unterminated_comment_lexes_last_char :
    (next_token_internal ⟨"/*x".data, 0, 1, 1⟩).1.kind = .ident ∧
    (next_token_internal ⟨"/*x".data, 0, 1, 1⟩).1.text = some "x" ∧
    (next_token_internal ⟨"/*".data, 0, 1, 1⟩).1.kind = .eof ∧
    (next_token_internal ⟨"/* a comment with no close x".data, 0, 1, 1⟩).1.kind = .ident ∧
    (next_token_internal ⟨"/* a comment with no close x".data, 0, 1, 1⟩).1.text = some "x" :=
  ⟨rfl, rfl, rfl, rfl, rfl⟩

end Acl
